import Mathlib

/-!
Verification development for the celebrity-sampling repository.

The repository scrapes celebrity relationship data.  Its algorithmic core is
a breadth-first "snowball" traversal over the implicit relationship graph
(scripts/snowball_collector.py, function find_dating_links_bfs), supported by
slug resolution and HTML-extraction heuristics (scripts/wd_utils.py) and a
per-letter collector (scripts/alphabet_collector.py).

This file gives a shallow embedding of those functions and proves or refutes
the specification's claims about them.  Network and HTML access is abstracted
into explicit inputs: a fetch function returns the list of partner slugs that
parse_partners_from_history would extract from the fetched page (or none when
the fetch raises), and the extraction helpers receive the relevant text
fragments of the page as optional strings.
-/

namespace CelebritySampling

abbrev Slug := String

/-! ## Slug resolver: wd_utils.safe_slug_from_href and wd_utils.is_individual_slug -/

/-- Characters stripped from the start of a URL by Python urllib.parse
(WHATWG C0 control characters and space). -/
def c0ControlOrSpace (c : Char) : Bool := c.toNat ≤ 0x20

/-- Bytes removed everywhere in a URL by Python urllib.parse (tab, CR, LF). -/
def unsafeUrlByte (c : Char) : Bool := c = '\t' || c = '\r' || c = '\n'

/-- Characters allowed in a URL scheme by Python urllib.parse. -/
def isSchemeChar (c : Char) : Bool := c.isAlphanum || c = '+' || c = '-' || c = '.'

/-- Scan for the colon terminating a URL scheme: all characters before it must
be scheme characters.  Returns the remainder after the colon when found. -/
def schemeRemainder : List Char → Option (List Char)
  | [] => none
  | c :: rest =>
    if c = ':' then some rest
    else if isSchemeChar c then schemeRemainder rest
    else none

/-- Python urlsplit scheme handling: a scheme is split off when the first
character is a letter and a colon follows a run of scheme characters. -/
def stripScheme (url : List Char) : List Char :=
  match url with
  | [] => []
  | c :: rest =>
    if c.isAlpha then
      match schemeRemainder rest with
      | some r => r
      | none => c :: rest
    else c :: rest

/-- Python urlsplit netloc handling: after a leading double slash, the netloc
extends up to the next one of the three path/query/fragment delimiters. -/
def dropNetlocChars : List Char → List Char
  | [] => []
  | c :: rest => if c = '/' || c = '?' || c = '#' then c :: rest else dropNetlocChars rest

/-- Strip a leading double slash together with the netloc that follows it. -/
def stripNetloc : List Char → List Char
  | '/' :: '/' :: rest => dropNetlocChars rest
  | l => l

/-- Keep the characters strictly before the first character satisfying p. -/
def takeUntilChar (p : Char → Bool) : List Char → List Char
  | [] => []
  | c :: rest => if p c then [] else c :: takeUntilChar p rest

/-- Embedding of the path component returned by Python
urllib.parse.urlparse: leading control characters and spaces are stripped,
tab/CR/LF removed, then scheme, netloc, fragment and query are split off. -/
def urlparsePath (url : List Char) : List Char :=
  let u1 := url.dropWhile c0ControlOrSpace
  let u2 := u1.filter (fun c => !unsafeUrlByte c)
  let u3 := stripNetloc (stripScheme u2)
  takeUntilChar (fun c => c = '?') (takeUntilChar (fun c => c = '#') u3)

/-- Python str.strip with a slash argument: remove slashes from both ends. -/
def stripSlashes (l : List Char) : List Char :=
  ((l.dropWhile (fun c => c = '/')).reverse.dropWhile (fun c => c = '/')).reverse

/-- Python str.split on a single separator character: splitChar sep l breaks
l at every occurrence of sep, keeping empty pieces, and always returns at
least one piece. -/
def splitChar (sep : Char) : List Char → List (List Char)
  | [] => [[]]
  | c :: rest =>
    match splitChar sep rest with
    | [] => [[]]
    | h :: t => if c = sep then [] :: h :: t else (c :: h) :: t

/-- Lowercase every character (Python str.lower on ASCII text). -/
def lowerChars (l : List Char) : List Char := l.map Char.toLower

/-- Embedding of wd_utils.safe_slug_from_href: turn an href into a slug
candidate.  Empty href gives none; otherwise the urlparse path (or the whole
href when that path is empty) is stripped of surrounding slashes; an empty
result gives none; when the first slash-separated segment is "dating"
(case-insensitively) and a second segment exists, that second segment is
returned, otherwise the last segment is returned. -/
def safe_slug_from_href (href : String) : Option String :=
  if href = "" then none
  else
    let parsedPath := urlparsePath href.toList
    let path0 := if parsedPath = [] then href.toList else parsedPath
    let path := stripSlashes path0
    if path = [] then none
    else
      let parts := splitChar '/' path
      if 2 ≤ parts.length ∧ lowerChars (parts.headD []) = "dating".toList
      then some (String.mk (parts.getD 1 []))
      else some (String.mk (parts.getLastD []))

/-- Derived predicate over the same computation as safe_slug_from_href:
true exactly when the slash-split path taken by safe_slug_from_href enters
the "dating" branch and the second segment is empty (the only way the
function can produce an empty slug). -/
def datingEmptySecond (href : String) : Bool :=
  let parsedPath := urlparsePath href.toList
  let path0 := if parsedPath = [] then href.toList else parsedPath
  let path := stripSlashes path0
  let parts := splitChar '/' path
  decide (2 ≤ parts.length) && decide (lowerChars (parts.headD []) = "dating".toList)
    && decide (parts.getD 1 [] = [])

/-- Embedding of wd_utils.is_individual_slug: heuristic detection of
individual-person slugs.  The empty slug is rejected; otherwise the slug is
lowercased and rejected when it contains "-and-", starts with "and-", ends
with "-and", or contains "couple". -/
def is_individual_slug (slug : String) : Bool :=
  if slug = "" then false
  else
    let s := lowerChars slug.toList
    if "-and-".toList <:+: s then false
    else if "and-".toList <+: s ∨ "-and".toList <:+ s then false
    else if "couple".toList <:+: s then false
    else true

/-! ## Page extractor: wd_utils.parse_facts_block (age) and
wd_utils.infer_gender_from_about -/

/-- Numeric value of a decimal digit character. -/
def digitVal (c : Char) : Nat := c.toNat - '0'.toNat

/-- Value of a digit string (what Python int() returns on it). -/
def digitsToNat (l : List Char) : Nat := l.foldl (fun acc c => acc * 10 + digitVal c) 0

/-- First maximal run of decimal digits in the text: what the regex search
for one-or-more digits used by parse_facts_block captures. -/
def firstDigitRun : List Char → Option (List Char)
  | [] => none
  | c :: rest =>
    if c.isDigit then some (c :: rest.takeWhile Char.isDigit)
    else firstDigitRun rest

/-- Embedding of the age branch of wd_utils.parse_facts_block.  The input is
the text of the age fact widget (none when the widget is missing on the
page).  When the whole text is digits it is parsed directly; otherwise the
first digit run anywhere in the text is parsed; with no digits the age is
absent. -/
def parse_facts_age (ageText : Option String) : Option Nat :=
  match ageText with
  | none => none
  | some t =>
    let l := t.toList
    if l ≠ [] ∧ l.all Char.isDigit then some (digitsToNat l)
    else
      match firstDigitRun l with
      | some run => some (digitsToNat run)
      | none => none

/-- Word characters for the regex word-boundary semantics used by
infer_gender_from_about (ASCII letters, digits and underscore). -/
def isWordChar (c : Char) : Bool := c.isAlphanum || c = '_'

/-- True when the list is empty or starts with a non-word character: the
condition for a word boundary after a match. -/
def headNonWord : List Char → Bool
  | [] => true
  | c :: _ => !isWordChar c

/-- True when there is no previous character or it is a non-word character:
the condition for a word boundary before a match. -/
def prevNonWord : Option Char → Bool
  | none => true
  | some c => !isWordChar c

/-- Regex search for a word with boundaries on both sides: wordSearch w prev
s is true when w occurs in s at some position whose preceding character
(prev for position zero) is absent or non-word and whose following character
is absent or non-word. -/
def wordSearch (w : List Char) : Option Char → List Char → Bool
  | _, [] => false
  | prev, c :: rest =>
    (decide (w <+: (c :: rest)) && prevNonWord prev && headNonWord ((c :: rest).drop w.length))
      || wordSearch w (some c) rest

/-- Whole-word containment in a text, as the word-boundary regexes of
infer_gender_from_about test it. -/
def containsWord (w : String) (text : List Char) : Bool := wordSearch w.toList none text

/-- Embedding of wd_utils.infer_gender_from_about.  The input is the text of
the about paragraph (none when the paragraph is missing).  The text is
lowercased and the ordered rules applied: she/her gives female, then he/his
gives male, then actress gives female, then actor without actress gives
male, otherwise unknown. -/
def infer_gender_from_about (about : Option String) : String :=
  match about with
  | none => "unknown"
  | some t =>
    let text := lowerChars t.toList
    if containsWord "she" text || containsWord "her" text then "female"
    else if containsWord "he" text || containsWord "his" text then "male"
    else if containsWord "actress" text then "female"
    else if containsWord "actor" text && !containsWord "actress" text then "male"
    else "unknown"

/-- Whole-word containment in the lowercased about-text, the condition each
regex of infer_gender_from_about tests. -/
abbrev aboutHas (w t : String) : Bool := containsWord w (lowerChars t.toList)

/-! ## Snowball traversal: snowball_collector.find_dating_links_bfs

The fetch argument abstracts fetch_soup plus parse_partners_from_history:
fetch u is none when fetching the page of slug u raises, and some ps when it
succeeds and the extractor discovers the partner slugs ps in page order. -/

/-- Traversal state of find_dating_links_bfs: the FIFO frontier, the set of
dequeued slugs (modelled as a list), and the ordered output accumulator. -/
structure BfsState where
  queue : List Slug
  visited : List Slug
  collected : List Slug
deriving DecidableEq

/-- Embedding of the partner loop of find_dating_links_bfs: each partner p is
appended to the queue when p is not in visited, not already in the (current,
growing) queue, and not in collected, in discovery order. -/
def enqueuePartners (visited collected : List Slug) : List Slug → List Slug → List Slug
  | queue, [] => queue
  | queue, p :: ps =>
    if p ∉ visited ∧ p ∉ queue ∧ p ∉ collected
    then enqueuePartners visited collected (queue ++ [p]) ps
    else enqueuePartners visited collected queue ps

/-- One iteration of the while body of find_dating_links_bfs: dequeue the
head; skip it when already visited; mark it visited; on fetch failure do
nothing else; on success append it to collected (defensive membership check
as in the source) and enqueue its partners. -/
def bfsBody (fetch : Slug → Option (List Slug)) : BfsState → BfsState
  | ⟨[], visited, collected⟩ => ⟨[], visited, collected⟩
  | ⟨current :: rest, visited, collected⟩ =>
    if current ∈ visited then ⟨rest, visited, collected⟩
    else
      match fetch current with
      | none => ⟨rest, current :: visited, collected⟩
      | some partners =>
        let collected2 := if current ∈ collected then collected else collected ++ [current]
        ⟨enqueuePartners (current :: visited) collected2 rest partners,
          current :: visited, collected2⟩

/-- The while loop of find_dating_links_bfs, fuel-indexed: the state after at
most fuel iterations; the loop exits when the queue is empty or the target
is reached, exactly as the Python loop condition re-checks. -/
def bfsLoop (fetch : Slug → Option (List Slug)) (target : Nat) : Nat → BfsState → BfsState
  | 0, s => s
  | fuel + 1, s =>
    if s.queue = [] ∨ target ≤ s.collected.length then s
    else bfsLoop fetch target fuel (bfsBody fetch s)

/-- Embedding of snowball_collector.find_dating_links_bfs: run the loop from
queue [start], empty visited and collected, and return collected truncated
to the target size. -/
def find_dating_links_bfs (fetch : Slug → Option (List Slug)) (start : Slug)
    (target fuel : Nat) : List Slug :=
  (bfsLoop fetch target fuel ⟨[start], [], []⟩).collected.take target

/-! ## Reachability in the relationship graph induced by fetch -/

/-- Outgoing edges of a node: the partners its page yields (empty on fetch
failure). -/
def partnersOf (fetch : Slug → Option (List Slug)) (u : Slug) : List Slug :=
  (fetch u).getD []

/-- ReachLe fetch seed n v holds when there is a path of length at most n
from the seed to v along partner edges. -/
inductive ReachLe (fetch : Slug → Option (List Slug)) (seed : Slug) : Nat → Slug → Prop where
  | refl (n : Nat) : ReachLe fetch seed n seed
  | step {n : Nat} {u v : Slug} :
      ReachLe fetch seed n u → v ∈ partnersOf fetch u → ReachLe fetch seed (n + 1) v

/-- A node is reachable when some path from the seed ends at it. -/
def Reachable (fetch : Slug → Option (List Slug)) (seed v : Slug) : Prop :=
  ∃ n, ReachLe fetch seed n v

/-- DistLeCmp fetch seed a b states that the breadth-first distance of a from
the seed is at most that of b: every path bound for b admits a path bound
for a no larger. -/
def DistLeCmp (fetch : Slug → Option (List Slug)) (seed : Slug) (a b : Slug) : Prop :=
  ∀ n, ReachLe fetch seed n b → ∃ m, m ≤ n ∧ ReachLe fetch seed m a

/-- DistIs fetch seed v d states that the breadth-first distance of v from
the seed is exactly d. -/
def DistIs (fetch : Slug → Option (List Slug)) (seed : Slug) (v : Slug) (d : Nat) : Prop :=
  ReachLe fetch seed d v ∧ ∀ m, ReachLe fetch seed m v → d ≤ m

/-- Structural state invariant of the traversal: the queue has no duplicates
and is disjoint from visited and collected, collected has no duplicates, and
every collected slug has been visited. -/
def BInv (s : BfsState) : Prop :=
  s.queue.Nodup ∧ (∀ v ∈ s.queue, v ∉ s.visited) ∧ (∀ v ∈ s.queue, v ∉ s.collected) ∧
    s.collected.Nodup ∧ (∀ c ∈ s.collected, c ∈ s.visited)

/-- Breadth-first level invariant at frontier level d: the queue splits into
a block at distance d followed by a block at distance d+1; every node within
distance d is discovered (visited or queued); partners of visited nodes are
discovered; collected nodes lie within distance d and are ordered by
distance; queue and visited hold only reachable nodes; and (since every
processed node was fresh and, under the success hypothesis, collected)
collected and visited have equal length. -/
def LevelInv (fetch : Slug → Option (List Slug)) (seed : Slug) (d : Nat) (s : BfsState) : Prop :=
  (∃ qa qb, s.queue = qa ++ qb ∧ (∀ v ∈ qa, DistIs fetch seed v d) ∧
      (∀ v ∈ qb, DistIs fetch seed v (d + 1))) ∧
    (∀ v, ReachLe fetch seed d v → v ∈ s.visited ∨ v ∈ s.queue) ∧
    (∀ u ∈ s.visited, ∀ p ∈ partnersOf fetch u, p ∈ s.visited ∨ p ∈ s.queue) ∧
    (∀ c ∈ s.collected, ReachLe fetch seed d c) ∧
    List.Pairwise (DistLeCmp fetch seed) s.collected ∧
    (∀ v ∈ s.queue, Reachable fetch seed v) ∧
    (∀ v ∈ s.visited, Reachable fetch seed v) ∧
    s.collected.length = s.visited.length

/-! ## Rate-limit traces

Instrumented views of the three fetch loops, recording fetch attempts (with
their outcome) and rate-limit sleeps in execution order, exactly where the
source performs them. -/

/-- Events observable in a fetch loop: a fetch attempt for a slug or letter
page with its outcome, or a rate-limit sleep. -/
inductive FetchEvent where
  | attempt (slug : Slug) (ok : Bool)
  | sleep
deriving DecidableEq

/-- Instrumented find_dating_links_bfs loop: a failed fetch is followed by
continue (no sleep); a successful fetch is followed by the rate-limit sleep
at the end of the iteration. -/
def bfsLoopTrace (fetch : Slug → Option (List Slug)) (target : Nat) :
    Nat → BfsState → List FetchEvent
  | 0, _ => []
  | _ + 1, ⟨[], _, _⟩ => []
  | fuel + 1, ⟨current :: rest, visited, collected⟩ =>
    if target ≤ collected.length then []
    else if current ∈ visited then bfsLoopTrace fetch target fuel ⟨rest, visited, collected⟩
    else
      match fetch current with
      | none =>
        FetchEvent.attempt current false ::
          bfsLoopTrace fetch target fuel ⟨rest, current :: visited, collected⟩
      | some partners =>
        let collected2 := if current ∈ collected then collected else collected ++ [current]
        FetchEvent.attempt current true :: FetchEvent.sleep ::
          bfsLoopTrace fetch target fuel
            ⟨enqueuePartners (current :: visited) collected2 rest partners,
              current :: visited, collected2⟩

/-- Instrumented wd_utils.write_profiles: per slug, fetch_profile either
fails (continue, no sleep) or succeeds (write, then sleep). -/
def write_profiles_trace (ok : Slug → Bool) : List Slug → List FetchEvent
  | [] => []
  | slug :: rest =>
    if ok slug then
      FetchEvent.attempt slug true :: FetchEvent.sleep :: write_profiles_trace ok rest
    else FetchEvent.attempt slug false :: write_profiles_trace ok rest

/-- Instrumented alphabet_collector.fetch_letter_slugs: a failed letter-page
fetch returns immediately (no sleep); a successful one sleeps after
parsing. -/
def fetch_letter_slugs_trace (ok : String → Bool) (letter : String) : List FetchEvent :=
  if ok letter then [FetchEvent.attempt letter true, FetchEvent.sleep]
  else [FetchEvent.attempt letter false]

/-- Recognize fetch attempts among events. -/
def isFetchEvent : FetchEvent → Bool
  | FetchEvent.attempt _ _ => true
  | FetchEvent.sleep => false

/-- The property the specification asserts: between any two consecutive
fetch events there is at least one sleep, i.e. no fetch event is immediately
followed by another fetch event. -/
def noAdjacentFetches : List FetchEvent → Bool
  | e1 :: e2 :: rest => (!(isFetchEvent e1 && isFetchEvent e2)) && noAdjacentFetches (e2 :: rest)
  | _ => true

/-- The property the code actually has: every successful fetch event is
immediately followed by a sleep event. -/
def successImmediatelySlept : List FetchEvent → Bool
  | [] => true
  | FetchEvent.attempt _ true :: rest =>
    (match rest with
      | FetchEvent.sleep :: _ => true
      | _ => false) && successImmediatelySlept rest
  | _ :: rest => successImmediatelySlept rest

/-- Concrete two-node relationship graph used to instantiate the traversal
theorems: node a has partner b, every other page parses with no partners. -/
def twoNodeFetch : Slug → Option (List Slug) := fun u => if u = "a" then some ["b"] else some []

/-! ## Helper lemmas -/

lemma enqueuePartners_spec (visited collected : List Slug) : ∀ (ps queue : List Slug),
    ∃ ps2, List.Sublist ps2 ps ∧
      enqueuePartners visited collected queue ps = queue ++ ps2 ∧
      ps2.Nodup ∧
      ∀ p ∈ ps2, p ∈ ps ∧ p ∉ visited ∧ p ∉ collected ∧ p ∉ queue := by
  intro ps
  induction ps with
  | nil =>
    intro queue
    exact ⟨[], by simp, by simp [enqueuePartners], by simp, by simp⟩
  | cons p ps ih =>
    intro queue
    by_cases h : p ∉ visited ∧ p ∉ queue ∧ p ∉ collected
    · obtain ⟨ps2, hsub, heq, hnd, hmem⟩ := ih (queue ++ [p])
      refine ⟨p :: ps2, hsub.cons₂ p, ?_, ?_, ?_⟩
      · simp only [enqueuePartners, if_pos h, heq, List.append_assoc, List.singleton_append]
      · refine List.nodup_cons.mpr ⟨?_, hnd⟩
        intro hp
        exact (hmem p hp).2.2.2 (List.mem_append_right _ (by simp))
      · intro x hx
        rcases List.mem_cons.mp hx with rfl | hx'
        · exact ⟨List.mem_cons_self _ _, h.1, h.2.2, h.2.1⟩
        · obtain ⟨h1, h2, h3, h4⟩ := hmem x hx'
          exact ⟨List.mem_cons_of_mem _ h1, h2, h3, fun hq => h4 (List.mem_append_left _ hq)⟩
    · obtain ⟨ps2, hsub, heq, hnd, hmem⟩ := ih queue
      refine ⟨ps2, hsub.cons p, ?_, hnd, ?_⟩
      · simp only [enqueuePartners, if_neg h, heq]
      · intro x hx
        obtain ⟨h1, h2, h3, h4⟩ := hmem x hx
        exact ⟨List.mem_cons_of_mem _ h1, h2, h3, h4⟩

lemma enqueuePartners_complete (visited collected : List Slug) : ∀ (ps queue : List Slug),
    ∀ p ∈ ps, p ∈ visited ∨ p ∈ collected ∨ p ∈ enqueuePartners visited collected queue ps := by
  intro ps
  induction ps with
  | nil => intro queue p hp; cases hp
  | cons a ps ih =>
    intro queue p hp
    rcases List.mem_cons.mp hp with rfl | hp'
    · by_cases h : p ∉ visited ∧ p ∉ queue ∧ p ∉ collected
      · right; right
        simp only [enqueuePartners, if_pos h]
        obtain ⟨ps2, _, heq, _, _⟩ := enqueuePartners_spec visited collected ps (queue ++ [p])
        rw [heq]
        exact List.mem_append_left _ (List.mem_append_right _ (by simp))
      · by_cases h1 : p ∈ visited
        · exact Or.inl h1
        · by_cases h3 : p ∈ collected
          · exact Or.inr (Or.inl h3)
          · have h2 : p ∈ queue := by
              by_contra h2
              exact h ⟨h1, h2, h3⟩
            right; right
            simp only [enqueuePartners, if_neg h]
            obtain ⟨ps2, _, heq, _, _⟩ := enqueuePartners_spec visited collected ps queue
            rw [heq]
            exact List.mem_append_left _ h2
    · by_cases h : a ∉ visited ∧ a ∉ queue ∧ a ∉ collected
      · simp only [enqueuePartners, if_pos h]
        exact ih (queue ++ [a]) p hp'
      · simp only [enqueuePartners, if_neg h]
        exact ih queue p hp'

lemma binv_init (start : Slug) : BInv ⟨[start], [], []⟩ := by
  refine ⟨by simp, by simp, by simp, by simp, by simp⟩

lemma binv_step (fetch : Slug → Option (List Slug)) (s : BfsState) (h : BInv s) :
    BInv (bfsBody fetch s) := by
  obtain ⟨queue, visited, collected⟩ := s
  obtain ⟨hqn, hqv, hqc, hcn, hcv⟩ := h
  cases queue with
  | nil => exact ⟨by simp [bfsBody], by simp [bfsBody], by simp [bfsBody], by simpa [bfsBody] using hcn, by simpa [bfsBody] using hcv⟩
  | cons current rest =>
    have hcur_nv : current ∉ visited := hqv current (by simp)
    have hcur_nc : current ∉ collected := hqc current (by simp)
    have hcur_rest : current ∉ rest := (List.nodup_cons.mp hqn).1
    have hrest_nodup : rest.Nodup := (List.nodup_cons.mp hqn).2
    cases hf : fetch current with
    | none =>
      have hbody : bfsBody fetch ⟨current :: rest, visited, collected⟩ =
          ⟨rest, current :: visited, collected⟩ := by
        simp [bfsBody, hcur_nv, hf]
      rw [hbody]
      refine ⟨hrest_nodup, ?_, ?_, hcn, ?_⟩
      · intro v hv
        simp only [List.mem_cons]
        rintro (rfl | hmem)
        · exact hcur_rest hv
        · exact hqv v (List.mem_cons_of_mem _ hv) hmem
      · intro v hv
        exact hqc v (List.mem_cons_of_mem _ hv)
      · intro c hc
        exact List.mem_cons_of_mem _ (hcv c hc)
    | some partners =>
      have hbody : bfsBody fetch ⟨current :: rest, visited, collected⟩ =
          ⟨enqueuePartners (current :: visited) (collected ++ [current]) rest partners,
            current :: visited, collected ++ [current]⟩ := by
        simp [bfsBody, hcur_nv, hf, hcur_nc]
      rw [hbody]
      obtain ⟨ps2, hsub, heq, hnd2, hmem2⟩ :=
        enqueuePartners_spec (current :: visited) (collected ++ [current]) partners rest
      rw [heq]
      refine ⟨?_, ?_, ?_, ?_, ?_⟩
      · refine List.nodup_append.mpr ⟨hrest_nodup, hnd2, ?_⟩
        intro a ha ha2
        exact (hmem2 a ha2).2.2.2 ha
      · intro v hv
        rcases List.mem_append.mp hv with hv1 | hv2
        · simp only [List.mem_cons]
          rintro (rfl | hmem)
          · exact hcur_rest hv1
          · exact hqv v (List.mem_cons_of_mem _ hv1) hmem
        · exact (hmem2 v hv2).2.1
      · intro v hv
        rcases List.mem_append.mp hv with hv1 | hv2
        · intro hmem
          rcases List.mem_append.mp hmem with hm1 | hm2
          · exact hqc v (List.mem_cons_of_mem _ hv1) hm1
          · simp at hm2
            subst hm2
            exact hcur_rest hv1
        · exact (hmem2 v hv2).2.2.1
      · refine List.nodup_append.mpr ⟨hcn, by simp, ?_⟩
        intro a ha ha2
        simp at ha2
        subst ha2
        exact hcur_nc ha
      · intro c hc
        rcases List.mem_append.mp hc with hc1 | hc2
        · exact List.mem_cons_of_mem _ (hcv c hc1)
        · simp at hc2
          subst hc2
          exact List.mem_cons_self _ _

lemma binv_loop (fetch : Slug → Option (List Slug)) (target : Nat) :
    ∀ (fuel : Nat) (s : BfsState), BInv s → BInv (bfsLoop fetch target fuel s) := by
  intro fuel
  induction fuel with
  | zero => intro s h; simpa [bfsLoop] using h
  | succ n ih =>
    intro s h
    by_cases hc : s.queue = [] ∨ target ≤ s.collected.length
    · simpa [bfsLoop, hc] using h
    · rw [bfsLoop, if_neg hc]
      exact ih _ (binv_step fetch s h)

lemma bfsBody_visited_mono (fetch : Slug → Option (List Slug)) (s : BfsState) :
    s.visited ⊆ (bfsBody fetch s).visited := by
  obtain ⟨queue, visited, collected⟩ := s
  cases queue with
  | nil => simp [bfsBody]
  | cons current rest =>
    simp only [bfsBody]
    split
    · exact fun a h => h
    · cases fetch current with
      | none => exact fun a h => List.mem_cons_of_mem _ h
      | some partners => exact fun a h => List.mem_cons_of_mem _ h

lemma bfsLoop_visited_extends (fetch : Slug → Option (List Slug)) (target : Nat) :
    ∀ (fuel : Nat) (s : BfsState), s.visited ⊆ (bfsLoop fetch target fuel s).visited := by
  intro fuel
  induction fuel with
  | zero => intro s; simp [bfsLoop]
  | succ n ih =>
    intro s
    by_cases hc : s.queue = [] ∨ target ≤ s.collected.length
    · simp [bfsLoop, hc]
    · rw [bfsLoop, if_neg hc]
      exact (bfsBody_visited_mono fetch s).trans (ih _)

lemma bfsLoop_visited_mono (fetch : Slug → Option (List Slug)) (target : Nat) :
    ∀ (fuel j : Nat) (s : BfsState),
      (bfsLoop fetch target fuel s).visited ⊆ (bfsLoop fetch target (fuel + j) s).visited := by
  intro fuel
  induction fuel with
  | zero =>
    intro j s
    simpa [bfsLoop, Nat.zero_add] using bfsLoop_visited_extends fetch target j s
  | succ n ih =>
    intro j s
    have harith : n + 1 + j = (n + j) + 1 := by omega
    rw [harith]
    by_cases hc : s.queue = [] ∨ target ≤ s.collected.length
    · rw [bfsLoop, if_pos hc, bfsLoop, if_pos hc]
      exact fun a h => h
    · rw [bfsLoop, if_neg hc, bfsLoop, if_neg hc]
      exact ih j _

lemma bfsLoop_empty_queue (fetch : Slug → Option (List Slug)) (target fuel : Nat)
    (visited collected : List Slug) :
    bfsLoop fetch target fuel ⟨[], visited, collected⟩ = ⟨[], visited, collected⟩ := by
  cases fuel <;> simp [bfsLoop]

/-! ## Claim theorems -/

/-- C2: the snowball traversal never collects the same identifier twice:
after any number k of loop iterations the collected accumulator has no
duplicates, and the final result of find_dating_links_bfs has no
duplicates, for every fetch behaviour, seed, target and fuel. -/
theorem collected_never_duplicates (fetch : Slug → Option (List Slug)) (start : Slug)
    (target k : Nat) :
    (bfsLoop fetch target k ⟨[start], [], []⟩).collected.Nodup ∧
      (find_dating_links_bfs fetch start target k).Nodup := by
  have h := binv_loop fetch target k ⟨[start], [], []⟩ (binv_init start)
  exact ⟨h.2.2.2.1, List.Nodup.sublist (List.take_sublist _ _) h.2.2.2.1⟩

/-- C3: throughout the traversal the visited set only grows (the visited
list after k iterations is contained in the visited list after k + j
iterations) and the queue never contains an identifier that is already
visited. -/
theorem visited_grows_queue_disjoint (fetch : Slug → Option (List Slug)) (start : Slug)
    (target k j : Nat) :
    (∀ v ∈ (bfsLoop fetch target k ⟨[start], [], []⟩).queue,
        v ∉ (bfsLoop fetch target k ⟨[start], [], []⟩).visited) ∧
      (bfsLoop fetch target k ⟨[start], [], []⟩).visited ⊆
        (bfsLoop fetch target (k + j) ⟨[start], [], []⟩).visited := by
  have h := binv_loop fetch target k ⟨[start], [], []⟩ (binv_init start)
  exact ⟨h.2.1, bfsLoop_visited_mono fetch target k j _⟩

/-- C10: throughout the traversal the queue contains no duplicate
identifiers: after any number k of loop iterations the queue is duplicate
free, for every fetch behaviour, seed and target. -/
theorem queue_never_duplicates (fetch : Slug → Option (List Slug)) (start : Slug)
    (target k : Nat) :
    (bfsLoop fetch target k ⟨[start], [], []⟩).queue.Nodup :=
  (binv_loop fetch target k ⟨[start], [], []⟩ (binv_init start)).1

/-- C6: when the seed identifier's fetch fails, the traversal marks the
seed visited, collects nothing, enqueues nothing, and the loop exhausts
immediately: the final state is empty queue, visited = [seed], empty
collected, and the returned sequence is empty. -/
theorem seed_fetch_failure_empty_result (fetch : Slug → Option (List Slug)) (start : Slug)
    (target fuel : Nat) (hf : fetch start = none) (ht : 1 ≤ target) (hfuel : 1 ≤ fuel) :
    bfsLoop fetch target fuel ⟨[start], [], []⟩ = ⟨[], [start], []⟩ ∧
      find_dating_links_bfs fetch start target fuel = [] := by
  obtain ⟨n, rfl⟩ : ∃ n, fuel = n + 1 := ⟨fuel - 1, by omega⟩
  have hguard : ¬((⟨[start], [], []⟩ : BfsState).queue = [] ∨
      target ≤ (⟨[start], [], []⟩ : BfsState).collected.length) := by
    simp
    omega
  have hbody : bfsBody fetch ⟨[start], [], []⟩ = ⟨[], [start], []⟩ := by
    simp [bfsBody, hf]
  have hloop : bfsLoop fetch target (n + 1) ⟨[start], [], []⟩ = ⟨[], [start], []⟩ := by
    rw [bfsLoop, if_neg hguard, hbody, bfsLoop_empty_queue]
  refine ⟨hloop, ?_⟩
  unfold find_dating_links_bfs
  rw [hloop]
  simp

/-- Witness for C6 at a concrete input: a fetch that always fails, seed a,
target 1, fuel 1. -/
theorem seed_fetch_failure_empty_result_witness :
    bfsLoop (fun _ => none) 1 1 ⟨["a"], [], []⟩ = ⟨[], ["a"], []⟩ ∧
      find_dating_links_bfs (fun _ => none) "a" 1 1 = [] :=
  seed_fetch_failure_empty_result (fun _ => none) "a" 1 1 rfl (by decide) (by decide)

/-- C4 counterexample: the about-text "actor actress" contains neither
pronoun as a whole word, contains both occupation words "actor" and
"actress", and infer_gender_from_about returns female on it, while the
claim's ordered rules (actress only when actor is absent, actor only when
actress is absent, otherwise unknown) would return unknown: the code's
actress rule has no "and not actor" guard. -/
theorem gender_both_occupations_counterexample :
    containsWord "she" (lowerChars "actor actress".toList) = false ∧
      containsWord "her" (lowerChars "actor actress".toList) = false ∧
      containsWord "he" (lowerChars "actor actress".toList) = false ∧
      containsWord "his" (lowerChars "actor actress".toList) = false ∧
      containsWord "actor" (lowerChars "actor actress".toList) = true ∧
      containsWord "actress" (lowerChars "actor actress".toList) = true ∧
      infer_gender_from_about (some "actor actress") = "female" := by
  decide

/-- C5 counterexample: on href "/dating//x" (a well-formed path whose second
segment is empty) safe_slug_from_href returns the empty string rather than
a non-empty string or none. -/
theorem resolve_empty_slug_counterexample :
    safe_slug_from_href "/dating//x" = some "" := by
  decide

/-- C7 counterexample: the identifier "x-AND-y" contains none of the claim's
literal markers, neither "-and-" as an infix nor "and-" at the start nor
"-and" at the end nor the substring "couple", yet is_individual_slug
returns false, because the source lowercases the slug before matching. -/
theorem individual_slug_case_counterexample :
    is_individual_slug "x-AND-y" = false ∧
      ¬("-and-".toList <:+: "x-AND-y".toList) ∧
      ¬("and-".toList <+: "x-AND-y".toList) ∧
      ¬("-and".toList <:+ "x-AND-y".toList) ∧
      ¬("couple".toList <:+: "x-AND-y".toList) := by
  decide

/-- C8 counterexample: the widget text "Age: 32" does not start with a
digit (it has no leading digits), yet parse_facts_age returns 32, because
the source falls back to the first digit run anywhere in the text; the
claim's examples "32" and "Age: unknown" behave as stated. -/
theorem age_first_run_counterexample :
    ("Age: 32".toList.headD ' ').isDigit = false ∧
      parse_facts_age (some "Age: 32") = some 32 ∧
      parse_facts_age (some "32") = some 32 ∧
      parse_facts_age (some "Age: unknown") = none := by
  decide

/-- C9 counterexample: in the fetch-and-write pipeline with two slugs whose
fetches both fail, the trace is two consecutive fetch attempts with no
sleep between them: the rate-limit delay is not applied after a failed
fetch. -/
theorem rate_limit_skipped_on_failure_counterexample :
    write_profiles_trace (fun _ => false) ["a", "b"] =
        [FetchEvent.attempt "a" false, FetchEvent.attempt "b" false] ∧
      noAdjacentFetches (write_profiles_trace (fun _ => false) ["a", "b"]) = false :=
  ⟨rfl, rfl⟩

lemma successImmediatelySlept_bfs (fetch : Slug → Option (List Slug)) (target : Nat) :
    ∀ (fuel : Nat) (s : BfsState),
      successImmediatelySlept (bfsLoopTrace fetch target fuel s) = true := by
  intro fuel
  induction fuel with
  | zero => intro s; rfl
  | succ n ih =>
    intro s
    obtain ⟨queue, visited, collected⟩ := s
    cases queue with
    | nil => rfl
    | cons current rest =>
      simp only [bfsLoopTrace]
      split
      · rfl
      · split
        · exact ih _
        · cases fetch current with
          | none => simpa [successImmediatelySlept] using ih _
          | some partners => simpa [successImmediatelySlept] using ih _

lemma successImmediatelySlept_write (ok : Slug → Bool) :
    ∀ slugs : List Slug, successImmediatelySlept (write_profiles_trace ok slugs) = true := by
  intro slugs
  induction slugs with
  | nil => rfl
  | cons s rest ih =>
    by_cases h : ok s = true
    · simpa [write_profiles_trace, h, successImmediatelySlept] using ih
    · simp only [Bool.not_eq_true] at h
      simpa [write_profiles_trace, h, successImmediatelySlept] using ih

lemma successImmediatelySlept_letter (ok : String → Bool) (letter : String) :
    successImmediatelySlept (fetch_letter_slugs_trace ok letter) = true := by
  by_cases h : ok letter = true
  · simp [fetch_letter_slugs_trace, h, successImmediatelySlept]
  · simp only [Bool.not_eq_true] at h
    simp [fetch_letter_slugs_trace, h, successImmediatelySlept]

/-- C9 amended: in all three components, the rate-limit delay is applied
immediately after every successful fetch; failed fetches proceed to the
next step without a delay. -/
theorem rate_limit_after_successful_fetch :
    (∀ (fetch : Slug → Option (List Slug)) (target fuel : Nat) (s : BfsState),
        successImmediatelySlept (bfsLoopTrace fetch target fuel s) = true) ∧
      (∀ (ok : Slug → Bool) (slugs : List Slug),
        successImmediatelySlept (write_profiles_trace ok slugs) = true) ∧
      (∀ (ok : String → Bool) (letter : String),
        successImmediatelySlept (fetch_letter_slugs_trace ok letter) = true) :=
  ⟨fun fetch target fuel s => successImmediatelySlept_bfs fetch target fuel s,
    fun ok slugs => successImmediatelySlept_write ok slugs,
    fun ok letter => successImmediatelySlept_letter ok letter⟩

/-- C4 amended: gender inference applies the ordered case-insensitive
rules: whole-word she or her gives female; otherwise he or his gives male;
otherwise actress gives female regardless of whether actor is also present
(the code has no "and not actor" guard on the actress rule); otherwise
actor (necessarily without actress at this point) gives male; otherwise,
and for a missing about paragraph, unknown.  Pronoun rules take precedence
over occupation rules. -/
theorem gender_rule_order (t : String) :
    ((aboutHas "she" t = true ∨ aboutHas "her" t = true) →
        infer_gender_from_about (some t) = "female") ∧
      (aboutHas "she" t = false → aboutHas "her" t = false →
        (aboutHas "he" t = true ∨ aboutHas "his" t = true) →
        infer_gender_from_about (some t) = "male") ∧
      (aboutHas "she" t = false → aboutHas "her" t = false → aboutHas "he" t = false →
        aboutHas "his" t = false → aboutHas "actress" t = true →
        infer_gender_from_about (some t) = "female") ∧
      (aboutHas "she" t = false → aboutHas "her" t = false → aboutHas "he" t = false →
        aboutHas "his" t = false → aboutHas "actress" t = false → aboutHas "actor" t = true →
        infer_gender_from_about (some t) = "male") ∧
      (aboutHas "she" t = false → aboutHas "her" t = false → aboutHas "he" t = false →
        aboutHas "his" t = false → aboutHas "actress" t = false → aboutHas "actor" t = false →
        infer_gender_from_about (some t) = "unknown") ∧
      infer_gender_from_about none = "unknown" := by
  refine ⟨?_, ?_, ?_, ?_, ?_, rfl⟩ <;>
    · intros
      simp_all [infer_gender_from_about, aboutHas]

/-- Witness for C4 amended at a concrete input: the about-text
"She is an actor" contains both the pronoun she and the word actor, and
the pronoun rule wins: the inferred gender is female. -/
theorem gender_rule_order_witness :
    infer_gender_from_about (some "She is an actor") = "female" :=
  (gender_rule_order "She is an actor").1 (Or.inl (by decide))

/-- C7 amended: is_individual_slug matches the pairing markers on the
lowercased identifier: for every non-empty identifier it returns false
exactly when the lowercased identifier contains "-and-", starts with
"and-", ends with "-and", or contains "couple"; the empty identifier also
yields false; the claim's three examples behave as stated. -/
theorem individual_slug_rules (slug : String) (h : slug ≠ "") :
    (is_individual_slug slug = false ↔
        ("-and-".toList <:+: lowerChars slug.toList ∨
          "and-".toList <+: lowerChars slug.toList ∨
          "-and".toList <:+ lowerChars slug.toList ∨
          "couple".toList <:+: lowerChars slug.toList)) ∧
      is_individual_slug "" = false ∧
      is_individual_slug "dylan-sprouse" = true ∧
      is_individual_slug "ariana-grande-and-dalton-gomez" = false ∧
      is_individual_slug "celebrity-couples" = false := by
  refine ⟨?_, by decide, by decide, by decide, by decide⟩
  simp only [is_individual_slug, if_neg h]
  by_cases h1 : "-and-".toList <:+: lowerChars slug.toList
  · rw [if_pos h1]
    exact iff_of_true rfl (Or.inl h1)
  · rw [if_neg h1]
    by_cases h2 : "and-".toList <+: lowerChars slug.toList ∨ "-and".toList <:+ lowerChars slug.toList
    · rw [if_pos h2]
      refine iff_of_true rfl ?_
      rcases h2 with h2 | h2
      · exact Or.inr (Or.inl h2)
      · exact Or.inr (Or.inr (Or.inl h2))
    · rw [if_neg h2]
      by_cases h3 : "couple".toList <:+: lowerChars slug.toList
      · rw [if_pos h3]
        exact iff_of_true rfl (Or.inr (Or.inr (Or.inr h3)))
      · rw [if_neg h3]
        refine iff_of_false (by simp) ?_
        push_neg at h2
        rintro (hc | hc | hc | hc)
        · exact h1 hc
        · exact h2.1 hc
        · exact h2.2 hc
        · exact h3 hc

/-- Witness for C7 amended at a concrete input: the identifier
"dylan-sprouse" is non-empty, is_individual_slug accepts it, and the iff
instantiates there. -/
theorem individual_slug_rules_witness :
    (is_individual_slug "dylan-sprouse" = false ↔
        ("-and-".toList <:+: lowerChars "dylan-sprouse".toList ∨
          "and-".toList <+: lowerChars "dylan-sprouse".toList ∨
          "-and".toList <:+ lowerChars "dylan-sprouse".toList ∨
          "couple".toList <:+: lowerChars "dylan-sprouse".toList)) ∧
      is_individual_slug "" = false ∧
      is_individual_slug "dylan-sprouse" = true ∧
      is_individual_slug "ariana-grande-and-dalton-gomez" = false ∧
      is_individual_slug "celebrity-couples" = false :=
  individual_slug_rules "dylan-sprouse" (by decide)

lemma firstDigitRun_none (l : List Char) (h : ∀ c ∈ l, c.isDigit = false) :
    firstDigitRun l = none := by
  induction l with
  | nil => rfl
  | cons c rest ih =>
    rw [firstDigitRun, if_neg (by simp [h c (List.mem_cons_self _ _)])]
    exact ih fun a ha => h a (List.mem_cons_of_mem _ ha)

lemma takeWhile_of_all (p : Char → Bool) : ∀ l : List Char, l.all p = true → l.takeWhile p = l := by
  intro l
  induction l with
  | nil => intro _; rfl
  | cons c rest ih =>
    intro h
    simp only [List.all_cons, Bool.and_eq_true] at h
    rw [List.takeWhile_cons, if_pos h.1, ih h.2]

lemma firstDigitRun_all (l : List Char) (h1 : l ≠ []) (h2 : l.all Char.isDigit = true) :
    firstDigitRun l = some l := by
  cases l with
  | nil => exact absurd rfl h1
  | cons c rest =>
    simp only [List.all_cons, Bool.and_eq_true] at h2
    rw [firstDigitRun, if_pos h2.1, takeWhile_of_all Char.isDigit rest h2.2]

/-- C8 amended: age parsing returns absent for a missing widget and for
text containing no digit at all, and otherwise returns the value of the
first run of digits anywhere in the text (the leading run when the text
begins with digits, as in the claim's example "32"). -/
theorem age_parses_first_digit_run :
    parse_facts_age none = none ∧
      (∀ t : String, (∀ c ∈ t.toList, c.isDigit = false) → parse_facts_age (some t) = none) ∧
      (∀ (t : String) (run : List Char), firstDigitRun t.toList = some run →
        parse_facts_age (some t) = some (digitsToNat run)) := by
  have hshow : ∀ t : String, parse_facts_age (some t) =
      if t.toList ≠ [] ∧ t.toList.all Char.isDigit = true then some (digitsToNat t.toList)
      else
        match firstDigitRun t.toList with
        | some run => some (digitsToNat run)
        | none => none := fun t => rfl
  refine ⟨rfl, ?_, ?_⟩
  · intro t h
    rw [hshow t, if_neg, firstDigitRun_none t.toList h]
    rintro ⟨hne, hall⟩
    rw [List.all_eq_true] at hall
    cases hl : t.toList with
    | nil => exact hne hl
    | cons c rest =>
      have h1 := h c (by rw [hl]; exact List.mem_cons_self _ _)
      have h2 := hall c (by rw [hl]; exact List.mem_cons_self _ _)
      simp_all
  · intro t run hrun
    by_cases hd : t.toList ≠ [] ∧ t.toList.all Char.isDigit = true
    · rw [hshow t, if_pos hd]
      rw [firstDigitRun_all t.toList hd.1 hd.2] at hrun
      injection hrun with hrun
      rw [hrun]
    · rw [hshow t, if_neg hd, hrun]

/-- Witness for C8 amended at a concrete input: on widget text "Age: 32"
the first digit run is 32 and parse_facts_age returns 32. -/
theorem age_parses_first_digit_run_witness :
    parse_facts_age (some "Age: 32") = some 32 := by
  have h := age_parses_first_digit_run.2.2 "Age: 32" ('3' :: '2' :: []) (by decide)
  exact h

lemma getLastD_indep {α : Type} (l : List α) (h : l ≠ []) (d1 d2 : α) :
    l.getLastD d1 = l.getLastD d2 := by
  cases hx : l.getLast? with
  | none => exact absurd (List.getLast?_eq_none_iff.mp hx) h
  | some x =>
    rw [List.getLastD_eq_getLast?, List.getLastD_eq_getLast?, hx]
    rfl

lemma getLastD_reverse {α : Type} (l : List α) (d : α) : l.reverse.getLastD d = l.headD d := by
  rw [List.getLastD_eq_getLast?, List.getLast?_reverse, List.headD_eq_head?]

lemma dropWhile_headD {α : Type} (p : α → Bool) (d : α) : ∀ l : List α,
    l.dropWhile p ≠ [] → p ((l.dropWhile p).headD d) = false := by
  intro l
  induction l with
  | nil => intro h; exact absurd rfl h
  | cons c rest ih =>
    intro h
    rw [List.dropWhile_cons] at h ⊢
    by_cases hc : p c
    · rw [if_pos hc] at h ⊢
      exact ih h
    · rw [if_neg hc] at h ⊢
      simpa using hc

lemma stripSlashes_getLastD (l : List Char) (h : stripSlashes l ≠ []) :
    (stripSlashes l).getLastD '/' ≠ '/' := by
  unfold stripSlashes at h ⊢
  rw [getLastD_reverse]
  have hne : ((l.dropWhile (fun c => c = '/')).reverse.dropWhile (fun c => c = '/')) ≠ [] := by
    intro he
    rw [he] at h
    exact h rfl
  have hhead := dropWhile_headD (fun c => c = '/') '/'
    ((l.dropWhile (fun c => c = '/')).reverse) hne
  simpa using hhead

lemma splitChar_ne_nil (sep : Char) : ∀ l : List Char, splitChar sep l ≠ [] := by
  intro l
  cases l with
  | nil => simp [splitChar]
  | cons c rest =>
    simp only [splitChar]
    cases h : splitChar sep rest with
    | nil => simp
    | cons a t => by_cases hc : c = sep <;> simp [hc]

lemma splitChar_last (sep : Char) : ∀ l : List Char, l ≠ [] → l.getLastD sep ≠ sep →
    (splitChar sep l).getLastD [] ≠ [] := by
  intro l
  induction l with
  | nil => intro h; exact absurd rfl h
  | cons c rest ih =>
    intro _ hlast
    by_cases hr : rest = []
    · subst hr
      have hc : c ≠ sep := by simpa [List.getLastD_cons] using hlast
      simp [splitChar, hc]
    · have hlast2 : rest.getLastD sep ≠ sep := by
        rw [List.getLastD_cons] at hlast
        rwa [getLastD_indep rest hr c sep] at hlast
      have hrec := ih hr hlast2
      simp only [splitChar]
      cases hs : splitChar sep rest with
      | nil => exact absurd hs (splitChar_ne_nil sep rest)
      | cons a t =>
        rw [hs] at hrec
        have hmatch : (match a :: t with
            | [] => ([[]] : List (List Char))
            | h :: t => if c = sep then [] :: h :: t else (c :: h) :: t) =
            (if c = sep then [] :: a :: t else (c :: a) :: t) := rfl
        rw [hmatch]
        by_cases hc : c = sep
        · rw [if_pos hc]
          simpa [List.getLastD_cons] using hrec
        · rw [if_neg hc]
          cases ht : t with
          | nil => simp
          | cons b t2 =>
            rw [ht] at hrec
            rw [List.getLastD_cons] at hrec
            rw [List.getLastD_cons]
            rwa [getLastD_indep (b :: t2) (by simp) (c :: a) a]

/-- C5 amended: safe_slug_from_href returns none for empty input, and every
slug it returns is non-empty except in one case: when the slash-split path
has at least two segments, the first segment is "dating" (case
insensitively) and the second segment is empty (for example a double slash
directly after the profile prefix), the returned slug is the empty
string. -/
theorem resolve_nonempty_or_dating_gap :
    safe_slug_from_href "" = none ∧
      ∀ (href s : String), safe_slug_from_href href = some s →
        s ≠ "" ∨ datingEmptySecond href = true := by
  refine ⟨rfl, ?_⟩
  intro href s h
  by_cases h0 : href = ""
  · rw [h0] at h
    simp [safe_slug_from_href] at h
  · simp only [safe_slug_from_href, if_neg h0] at h
    set path := stripSlashes
      (if urlparsePath href.toList = [] then href.toList else urlparsePath href.toList)
      with hpath
    by_cases hp : path = []
    · rw [if_pos hp] at h
      cases h
    · rw [if_neg hp] at h
      by_cases hb : 2 ≤ (splitChar '/' path).length ∧
          lowerChars ((splitChar '/' path).headD []) = "dating".toList
      · rw [if_pos hb] at h
        by_cases hemp : (splitChar '/' path).getD 1 [] = []
        · right
          simp only [datingEmptySecond]
          rw [← hpath]
          simp only [Bool.and_eq_true, decide_eq_true_eq]
          exact ⟨⟨hb.1, hb.2⟩, hemp⟩
        · left
          injection h with h
          rw [← h]
          intro hcon
          exact hemp (by simpa using congrArg String.data hcon)
      · rw [if_neg hb] at h
        left
        injection h with h
        rw [← h]
        have hlast : (splitChar '/' path).getLastD [] ≠ [] := by
          refine splitChar_last '/' path hp ?_
          rw [hpath]
          exact stripSlashes_getLastD _ (by rw [← hpath]; exact hp)
        intro hcon
        exact hlast (by simpa using congrArg String.data hcon)

/-- Witness for C5 amended at a concrete input: on the ordinary profile
href the returned slug is the non-empty segment after the prefix. -/
theorem resolve_nonempty_or_dating_gap_witness :
    "dylan-sprouse" ≠ "" ∨ datingEmptySecond "/dating/dylan-sprouse" = true :=
  resolve_nonempty_or_dating_gap.2 "/dating/dylan-sprouse" "dylan-sprouse" (by decide)

lemma reachLe_succ (fetch : Slug → Option (List Slug)) (seed : Slug) :
    ∀ {n : Nat} {v : Slug}, ReachLe fetch seed n v → ReachLe fetch seed (n + 1) v := by
  intro n v h
  induction h with
  | refl m => exact ReachLe.refl (m + 1)
  | step _ e ih => exact ReachLe.step ih e

lemma reachLe_mono (fetch : Slug → Option (List Slug)) (seed : Slug) :
    ∀ {n m : Nat}, n ≤ m → ∀ {v : Slug}, ReachLe fetch seed n v → ReachLe fetch seed m v := by
  intro n m hnm
  induction hnm with
  | refl => exact fun h => h
  | step _ ih => intro v h; exact reachLe_succ fetch seed (ih h)

lemma cinv_step (fetch : Slug → Option (List Slug)) (seed : Slug)
    (Hs : ∀ v, Reachable fetch seed v → fetch v ≠ none)
    (s : BfsState) (hne : s.queue ≠ []) (hB : BInv s)
    (d : Nat) (hL : LevelInv fetch seed d s) :
    BInv (bfsBody fetch s) ∧ (∃ e, LevelInv fetch seed e (bfsBody fetch s)) ∧
      (bfsBody fetch s).collected.length = s.collected.length + 1 := by
  have hB2 := binv_step fetch s hB
  obtain ⟨queue, visited, collected⟩ := s
  obtain ⟨hqn, hqv, hqc, hcn, hcv⟩ := hB
  obtain ⟨⟨qa, qb, hsplit, hqa, hqb⟩, hD, hE, hC, hP, hQR, hVR, hlen⟩ := hL
  cases queue with
  | nil => exact absurd rfl hne
  | cons current rest =>
    have hcur_nv : current ∉ visited := hqv current (List.mem_cons_self _ _)
    have hcur_nc : current ∉ collected := hqc current (List.mem_cons_self _ _)
    have hcur_reach : Reachable fetch seed current := hQR current (List.mem_cons_self _ _)
    have hcur_rest : current ∉ rest := (List.nodup_cons.mp hqn).1
    obtain ⟨partners, hf⟩ : ∃ ps, fetch current = some ps := by
      cases hfc : fetch current with
      | none => exact absurd hfc (Hs current hcur_reach)
      | some ps => exact ⟨ps, rfl⟩
    have hpartners : partnersOf fetch current = partners := by
      simp [partnersOf, hf]
    have hbody : bfsBody fetch ⟨current :: rest, visited, collected⟩ =
        ⟨enqueuePartners (current :: visited) (collected ++ [current]) rest partners,
          current :: visited, collected ++ [current]⟩ := by
      simp [bfsBody, hcur_nv, hf, hcur_nc]
    rw [hbody]
    rw [hbody] at hB2
    obtain ⟨e, hde, hcur_dist, ra, rb, hrest_eq, hra, hrb, hD2⟩ :
        ∃ e, d ≤ e ∧ DistIs fetch seed current e ∧
          ∃ ra rb, rest = ra ++ rb ∧ (∀ v ∈ ra, DistIs fetch seed v e) ∧
            (∀ v ∈ rb, DistIs fetch seed v (e + 1)) ∧
            ∀ v, ReachLe fetch seed e v → v ∈ visited ∨ v ∈ current :: rest := by
      cases qa with
      | nil =>
        have hqb0 : qb = current :: rest := by simpa using hsplit.symm
        have hqb2 : ∀ v ∈ current :: rest, DistIs fetch seed v (d + 1) := by
          intro v hv
          exact hqb v (by rw [hqb0]; exact hv)
        refine ⟨d + 1, Nat.le_succ d, hqb2 current (List.mem_cons_self _ _), rest, [],
          by simp, fun v hv => hqb2 v (List.mem_cons_of_mem _ hv), by simp, ?_⟩
        intro v hv
        cases hv with
        | refl n =>
          rcases hD seed (ReachLe.refl d) with h | h
          · exact Or.inl h
          · exact Or.inr h
        | step hu he =>
          rcases hD _ hu with h | h
          · rcases hE _ h _ he with h2 | h2
            · exact Or.inl h2
            · exact Or.inr h2
          · exact absurd ((hqb2 _ h).2 _ hu) (by omega)
      | cons a qa2 =>
        have hca : current = a ∧ rest = qa2 ++ qb := by
          rw [List.cons_append] at hsplit
          exact ⟨by injection hsplit, by injection hsplit⟩
        obtain ⟨rfl, hrest2⟩ := hca
        exact ⟨d, le_refl d, hqa current (List.mem_cons_self _ _), qa2, qb, hrest2,
          fun v hv => hqa v (List.mem_cons_of_mem _ hv), hqb, hD⟩
    obtain ⟨ps2, hsub, heq, hnd2, hmem2⟩ :=
      enqueuePartners_spec (current :: visited) (collected ++ [current]) partners rest
    rw [heq] at hB2 ⊢
    have hps2_dist : ∀ p ∈ ps2, DistIs fetch seed p (e + 1) := by
      intro p hp
      obtain ⟨hp_part, hp_nv, hp_nc, hp_nq⟩ := hmem2 p hp
      constructor
      · exact ReachLe.step hcur_dist.1 (by rw [hpartners]; exact hp_part)
      · intro m hm
        by_contra hcon
        push_neg at hcon
        have hre : ReachLe fetch seed e p := reachLe_mono fetch seed (by omega) hm
        rcases hD2 p hre with h | h
        · exact hp_nv (List.mem_cons_of_mem _ h)
        · rcases List.mem_cons.mp h with rfl | h2
          · exact hp_nv (List.mem_cons_self _ _)
          · exact hp_nq h2
    refine ⟨hB2, ⟨e, ⟨ra, rb ++ ps2, ?_, hra, ?_⟩, ?_, ?_, ?_, ?_, ?_, ?_, ?_⟩, by simp⟩
    · rw [hrest_eq, List.append_assoc]
    · intro v hv
      rcases List.mem_append.mp hv with h | h
      · exact hrb v h
      · exact hps2_dist v h
    · intro v hv
      rcases hD2 v hv with h | h
      · exact Or.inl (List.mem_cons_of_mem _ h)
      · rcases List.mem_cons.mp h with rfl | h2
        · exact Or.inl (List.mem_cons_self _ _)
        · exact Or.inr (List.mem_append_left _ h2)
    · intro u hu p hp
      rcases List.mem_cons.mp hu with rfl | hu2
      · rw [hpartners] at hp
        rcases enqueuePartners_complete (u :: visited) (collected ++ [u]) partners rest p hp
          with h | h | h
        · exact Or.inl h
        · rcases List.mem_append.mp h with h2 | h2
          · exact Or.inl (List.mem_cons_of_mem _ (hcv p h2))
          · simp at h2
            subst h2
            exact Or.inl (List.mem_cons_self _ _)
        · rw [heq] at h
          exact Or.inr h
      · rcases hE u hu2 p hp with h | h
        · exact Or.inl (List.mem_cons_of_mem _ h)
        · rcases List.mem_cons.mp h with rfl | h2
          · exact Or.inl (List.mem_cons_self _ _)
          · exact Or.inr (List.mem_append_left _ h2)
    · intro c hc
      rcases List.mem_append.mp hc with h | h
      · exact reachLe_mono fetch seed hde (hC c h)
      · simp at h
        subst h
        exact hcur_dist.1
    · refine List.pairwise_append.mpr ⟨hP, by simp, ?_⟩
      intro c hc b hb
      simp at hb
      subst hb
      intro n hn
      exact ⟨d, by have := hcur_dist.2 n hn; omega, hC c hc⟩
    · intro v hv
      rcases List.mem_append.mp hv with h | h
      · exact hQR v (List.mem_cons_of_mem _ h)
      · exact ⟨e + 1, (hps2_dist v h).1⟩
    · intro v hv
      rcases List.mem_cons.mp hv with rfl | h
      · exact hcur_reach
      · exact hVR v h
    · simp [hlen]

lemma reach_all_visited (fetch : Slug → Option (List Slug)) (seed : Slug)
    (s : BfsState) (hqe : s.queue = []) (d : Nat) (hL : LevelInv fetch seed d s) :
    ∀ (n : Nat) (v : Slug), ReachLe fetch seed n v → v ∈ s.visited := by
  obtain ⟨_, hD, hE, _⟩ := hL
  intro n v h
  induction h with
  | refl m =>
    rcases hD seed (ReachLe.refl d) with h | h
    · exact h
    · rw [hqe] at h
      cases h
  | step _ he ih =>
    rcases hE _ ih _ he with h | h
    · exact h
    · rw [hqe] at h
      cases h

lemma linv_init (fetch : Slug → Option (List Slug)) (seed : Slug) :
    LevelInv fetch seed 0 ⟨[seed], [], []⟩ := by
  refine ⟨⟨[seed], [], by simp, ?_, by simp⟩, ?_, by simp, by simp, by simp, ?_, by simp, rfl⟩
  · intro v hv
    simp at hv
    subst hv
    exact ⟨ReachLe.refl 0, fun m _ => Nat.zero_le m⟩
  · intro v hv
    right
    cases hv with
    | refl => exact List.mem_cons_self _ _
  · intro v hv
    simp at hv
    subst hv
    exact ⟨0, ReachLe.refl 0⟩

lemma c1_loop (fetch : Slug → Option (List Slug)) (seed : Slug) (target : Nat)
    (Hs : ∀ v, Reachable fetch seed v → fetch v ≠ none)
    (R : List Slug) (hRn : R.Nodup) (hRr : ∀ v ∈ R, Reachable fetch seed v)
    (hRl : target ≤ R.length) :
    ∀ (fuel : Nat) (s : BfsState), BInv s → (∃ d, LevelInv fetch seed d s) →
      s.collected.length ≤ target → target ≤ s.collected.length + fuel →
      (bfsLoop fetch target fuel s).collected.length = target ∧
        List.Pairwise (DistLeCmp fetch seed) (bfsLoop fetch target fuel s).collected := by
  intro fuel
  induction fuel with
  | zero =>
    intro s hB hLex hle hge
    obtain ⟨d, hL⟩ := hLex
    rw [bfsLoop]
    exact ⟨by omega, hL.2.2.2.2.1⟩
  | succ n ih =>
    intro s hB hLex hle hge
    obtain ⟨d, hL⟩ := hLex
    by_cases hc : s.queue = [] ∨ target ≤ s.collected.length
    · rw [bfsLoop, if_pos hc]
      rcases hc with hq | ht
      · have hsub : R ⊆ s.visited := by
          intro v hv
          obtain ⟨m, hm⟩ := hRr v hv
          exact reach_all_visited fetch seed s hq d hL m v hm
        have hcard : R.length ≤ s.visited.length := (hRn.subperm hsub).length_le
        have hlen := hL.2.2.2.2.2.2.2
        exact ⟨by omega, hL.2.2.2.2.1⟩
      · exact ⟨by omega, hL.2.2.2.2.1⟩
    · push_neg at hc
      obtain ⟨hB2, hL2, hlen2⟩ := cinv_step fetch seed Hs s hc.1 hB d hL
      rw [bfsLoop, if_neg (by push_neg; exact hc)]
      exact ih (bfsBody fetch s) hB2 hL2 (by omega) (by omega)

/-- C1: on a relationship graph in which every reachable node fetches and
parses successfully and at least target distinct nodes are reachable from
the seed (witnessed by the duplicate-free list R of reachable nodes), the
snowball traversal with fuel at least target returns exactly target
identifiers, collected in non-decreasing breadth-first distance from the
seed; moreover partners of a node are enqueued in the order the extractor
discovered them on the page: the enqueue loop appends, in order, the
sublist of the discovered partners passing the dedup checks. -/
theorem bfs_collects_target_in_distance_order (fetch : Slug → Option (List Slug))
    (seed : Slug) (target fuel : Nat) (R : List Slug)
    (Hs : ∀ v, Reachable fetch seed v → fetch v ≠ none)
    (hRn : R.Nodup) (hRr : ∀ v ∈ R, Reachable fetch seed v) (hRl : target ≤ R.length)
    (hfuel : target ≤ fuel) :
    (find_dating_links_bfs fetch seed target fuel).length = target ∧
      List.Pairwise (DistLeCmp fetch seed) (find_dating_links_bfs fetch seed target fuel) ∧
      ∀ visited collected queue partners, ∃ ps2, List.Sublist ps2 partners ∧
        enqueuePartners visited collected queue partners = queue ++ ps2 := by
  have h := c1_loop fetch seed target Hs R hRn hRr hRl fuel ⟨[seed], [], []⟩
    (binv_init seed) ⟨0, linv_init fetch seed⟩ (by simp) (by simpa using hfuel)
  refine ⟨?_, ?_, ?_⟩
  · unfold find_dating_links_bfs
    rw [List.length_take, h.1]
    omega
  · exact List.Pairwise.sublist (List.take_sublist _ _) h.2
  · intro visited collected queue partners
    obtain ⟨ps2, h1, h2, _, _⟩ := enqueuePartners_spec visited collected partners queue
    exact ⟨ps2, h1, h2⟩

/-- Witness for C1 at a concrete input: the two-node graph a to b with all
fetches succeeding, target 2, fuel 2, and R the two reachable nodes. -/
theorem bfs_collects_target_in_distance_order_witness :
    (find_dating_links_bfs twoNodeFetch "a" 2 2).length = 2 ∧
      List.Pairwise (DistLeCmp twoNodeFetch "a") (find_dating_links_bfs twoNodeFetch "a" 2 2) := by
  have h := bfs_collects_target_in_distance_order twoNodeFetch "a" 2 2 ["a", "b"]
    (by
      intro v _
      unfold twoNodeFetch
      split <;> simp)
    (by decide)
    (by
      intro v hv
      rcases List.mem_cons.mp hv with rfl | hv2
      · exact ⟨0, ReachLe.refl 0⟩
      · have : v = "b" := by simpa using hv2
        subst this
        exact ⟨1, ReachLe.step (ReachLe.refl 0) (by simp [partnersOf, twoNodeFetch])⟩)
    (by decide) (by decide)
  exact ⟨h.1, h.2.1⟩

end CelebritySampling
